import Mathlib

/-!
Verification of the field-extraction core of `zotero_parser.py`.

The Python source is shallowly embedded: strings are Lean `String`s
(`List Char` underneath), Python's `str.split()` / `str.strip()` are
modelled over the ASCII whitespace characters (space, tab, LF, VT, FF,
CR), and the regular expression `\b(19|20)\d{2}\b` used by
`extract_year_from_date` is modelled with ASCII word characters
(`[A-Za-z0-9_]`), matching its behaviour on ASCII input.

The HTML layer (BeautifulSoup) is the external collaborator: an entry is
modelled as an optional heading text plus an optional table, a table as a
list of rows, and a row as an optional `th` cell (class attribute and
text) plus an optional `td` cell text, exactly the shape read by
`parse_article`.  An unexpected per-entry exception inside the `try`
block of `parse_zotero_html_report` is modelled by the `Item.fault`
constructor.
-/

namespace Zotero

/-- The ASCII whitespace characters recognised by Python's `str.split()`
and `str.strip()`: space, tab, LF, VT, FF, CR. -/
def isPySpace (c : Char) : Bool :=
  c.toNat == 32 || c.toNat == 9 || c.toNat == 10 ||
  c.toNat == 11 || c.toNat == 12 || c.toNat == 13

/-- ASCII model of the regex class `\d`. -/
def isDigitChar (c : Char) : Bool :=
  48 ≤ c.toNat && c.toNat ≤ 57

/-- ASCII model of the regex class `\w` (used for `\b` word boundaries). -/
def isWordChar (c : Char) : Bool :=
  (65 ≤ c.toNat && c.toNat ≤ 90) || (97 ≤ c.toNat && c.toNat ≤ 122) ||
  isDigitChar c || c.toNat == 95

/-- `text.replace('\n', ' ').replace('\r', ' ')` from `clean_text`. -/
def pyReplaceNewlines (cs : List Char) : List Char :=
  cs.map (fun c => if c == '\n' || c == '\r' then ' ' else c)

/-- Accumulator loop behind Python's `str.split()` (split on runs of
whitespace, discarding empty pieces); `acc` holds the current token in
reverse. -/
def splitWsAux : List Char → List Char → List (List Char)
  | [], acc => if acc.isEmpty then [] else [acc.reverse]
  | c :: cs, acc =>
    if isPySpace c then
      if acc.isEmpty then splitWsAux cs []
      else acc.reverse :: splitWsAux cs []
    else splitWsAux cs (c :: acc)

/-- Python `str.split()` on a character list. -/
def pySplitL (cs : List Char) : List (List Char) :=
  splitWsAux cs []

/-- Python `' '.join(...)` on character-list tokens. -/
def joinSpaceL : List (List Char) → List Char
  | [] => []
  | [t] => t
  | t :: u :: rest => t ++ ' ' :: joinSpaceL (u :: rest)

/-- Remove trailing whitespace. -/
def dropTrailingWs (cs : List Char) : List Char :=
  (cs.reverse.dropWhile isPySpace).reverse

/-- Python `str.strip()` on a character list. -/
def pyStripL (cs : List Char) : List Char :=
  dropTrailingWs (cs.dropWhile isPySpace)

/-- Python `str.strip()`. -/
def pyStrip (s : String) : String :=
  String.mk (pyStripL s.data)

/-- Python `str.split()`. -/
def pySplit (s : String) : List String :=
  (pySplitL s.data).map String.mk

/-- `clean_text` from `zotero_parser.py`: early return on the empty
string, replace `\n` and `\r` by spaces, then `' '.join(text.split())`. -/
def clean_text (text : String) : String :=
  if text = "" then ""
  else String.mk (joinSpaceL (pySplitL (pyReplaceNewlines text.data)))

/-- `extract_last_name` from `zotero_parser.py`: strip, split on
whitespace, return the last part if any, otherwise the input unchanged. -/
def extract_last_name (full_name : String) : String :=
  match (pySplit (pyStrip full_name)).getLast? with
  | some p => p
  | none => full_name

/-- `format_authors` from `zotero_parser.py`. -/
def format_authors (author_list : List String) : String :=
  if author_list = [] then ""
  else
    match (author_list.filter (fun a => pyStrip a ≠ "")).map extract_last_name with
    | [a] => a
    | [a, b] => a ++ " and " ++ b
    | a :: _ :: _ :: _ => a ++ " et al"
    | [] => ""

/-- One attempted match of `\b(19|20)\d{2}\b` at the current position:
`prev` is the character just before the position (`none` at the start of
the string). -/
def yearMatchAt : Option Char → List Char → Option String
  | prev, c1 :: c2 :: c3 :: c4 :: rest =>
    if ((c1 == '1' && c2 == '9') || (c1 == '2' && c2 == '0'))
        && isDigitChar c3 && isDigitChar c4
        && (match prev with | none => true | some b => !isWordChar b)
        && (match rest with | [] => true | r :: _ => !isWordChar r) then
      some (String.mk [c1, c2, c3, c4])
    else none
  | _, _ => none

/-- `re.search` scan: try the pattern at each position, left to right. -/
def findYear : Option Char → List Char → Option String
  | _, [] => none
  | prev, c :: cs =>
    match yearMatchAt prev (c :: cs) with
    | some y => some y
    | none => findYear (some c) cs

/-- `extract_year_from_date` from `zotero_parser.py`. -/
def extract_year_from_date (date_text : String) : String :=
  if date_text = "" then ""
  else
    match findYear none date_text.data with
    | some y => y
    | none => ""

/-- Output unit of `parse_article`: the dict with keys
`title, author(s), year, journal, abstract`. -/
structure Record where
  title : String
  authors : String
  year : String
  journal : String
  abstract : String
deriving Repr, DecidableEq

/-- A `th` cell: its class attribute (if any) and its extracted text. -/
structure ThCell where
  cls : Option String
  text : String
deriving Repr, DecidableEq

/-- A table row as read by `parse_article`: the first `th` of the row (its
class and `get_text(strip=True)` result) and the text of the adjacent
`td`, each possibly absent. -/
structure Row where
  th : Option ThCell
  td : Option String
deriving Repr, DecidableEq

/-- One bibliography entry (`li.item`): the `h2` heading text, if an `h2`
exists, and the rows of the first `table`, if a table exists. -/
structure Entry where
  title : Option String
  table : Option (List Row)
deriving Repr, DecidableEq

/-- The author-collection loop of `parse_article`: for each
`th.author` with an adjacent `td`, clean the `td` text and keep it when
non-empty. -/
def collectAuthors (rows : List Row) : List String :=
  rows.filterMap (fun r =>
    match r.th, r.td with
    | some th, some td =>
      if th.cls = some "author" then
        let author_name := clean_text td
        if author_name ≠ "" then some author_name else none
      else none
    | _, _ => none)

/-- The label group resolved into the `journal` field. -/
def journalLabels : List String :=
  ["Publication", "Proceedings Title", "Publisher"]

/-- One iteration of the row-scan loop of `parse_article`: rows missing
`th` or `td` are skipped; `Date` overwrites `year`; the journal group
assigns only when `journal` is still empty; `Abstract` overwrites
`abstract`. -/
def scanRow (acc : Record) (r : Row) : Record :=
  match r.th, r.td with
  | some th, some td =>
    let field_name := th.text
    let field_value := clean_text td
    if field_name = "Date" then
      { acc with year := extract_year_from_date field_value }
    else if journalLabels.contains field_name then
      if acc.journal = "" then { acc with journal := field_value } else acc
    else if field_name = "Abstract" then { acc with abstract := field_value }
    else acc
  | _, _ => acc

/-- `parse_article` from `zotero_parser.py`. -/
def parse_article (e : Entry) : Record :=
  let d0 : Record :=
    { title := "", authors := "", year := "", journal := "", abstract := "" }
  let d1 :=
    match e.title with
    | some t => { d0 with title := clean_text t }
    | none => d0
  match e.table with
  | none => d1
  | some rows =>
    let d2 := { d1 with authors := format_authors (collectAuthors rows) }
    rows.foldl scanRow d2

/-- One scanned `li.item`: either an entry handed to `parse_article`, or
an entry whose extraction raises an unexpected exception (caught by the
`try`/`except` in `parse_zotero_html_report`). -/
inductive Item where
  | ok (e : Entry)
  | fault
deriving Repr, DecidableEq

/-- The record an item contributes to the output: `none` for a faulting
item and for an entry whose extracted title is empty. -/
def extractedRecord? : Item → Option Record
  | .ok e =>
    let r := parse_article e
    if r.title ≠ "" then some r else none
  | .fault => none

/-- One iteration of the per-entry loop of `parse_zotero_html_report`:
append the parsed record when its title is non-empty, skip otherwise, and
skip a faulting entry (the `except` branch). -/
def reportStep (acc : List Record) (it : Item) : List Record :=
  match it with
  | .ok e =>
    let article_data := parse_article e
    if article_data.title ≠ "" then acc ++ [article_data] else acc
  | .fault => acc

/-- The per-entry loop of `parse_zotero_html_report`. -/
def parse_zotero_html_report (items : List Item) : List Record :=
  items.foldl reportStep []

/-! ### Spec-side definitions

The following definitions transcribe the specification's wording (not the
source) and are compared with the source-side definitions above. -/

/-- Spec wording: a blank (whitespace-only) author entry. -/
def blankSpec (s : String) : Bool :=
  s.data.all isPySpace

/-- Spec wording: "split on whitespace, take the last token; if no
tokens, use the original string unchanged". -/
def surnameSpec (s : String) : String :=
  match (pySplit s).getLast? with
  | some t => t
  | none => s

/-- Spec wording of author formatting: drop blank entries, reduce each
name to its surname, then apply the multiplicity rule. -/
def formatAuthorsSpec (l : List String) : String :=
  match (l.filter (fun a => !blankSpec a)).map surnameSpec with
  | [] => ""
  | [a] => a
  | [a, b] => a ++ " and " ++ b
  | a :: _ :: _ :: _ => a ++ " et al"

/-- Spec wording: collapse every run of whitespace into a single space. -/
def collapseWs : List Char → List Char
  | [] => []
  | c :: cs =>
    if isPySpace c then ' ' :: collapseWs (cs.dropWhile isPySpace)
    else c :: collapseWs cs
termination_by cs => cs.length
decreasing_by
  · simp only [List.length_cons]
    exact Nat.lt_succ_of_le (List.dropWhile_sublist _).length_le
  · simp

/-- Spec wording: trim leading and trailing whitespace. -/
def trimSpec (cs : List Char) : List Char :=
  dropTrailingWs (cs.dropWhile isPySpace)

/-- Spec wording of text cleaning: replace CR and LF by spaces, collapse
whitespace runs, trim the ends. -/
def cleanTextSpec (s : String) : String :=
  String.mk (trimSpec (collapseWs (pyReplaceNewlines s.data)))

/-- The label and cleaned value of a row, when the row has both cells. -/
def rowLabelValue? (r : Row) : Option (String × String) :=
  match r.th, r.td with
  | some th, some td => some (th.text, clean_text td)
  | _, _ => none

/-- Spec wording of journal resolution: the first non-empty cleaned value
among rows labelled with the journal group, in row-scan order. -/
def journalSpec (rows : List Row) : String :=
  ((rows.filterMap rowLabelValue?).filterMap (fun lv =>
    if lv.1 ∈ journalLabels ∧ lv.2 ≠ "" then some lv.2 else none)).headD ""

/-- The cleaned values of the complete rows labelled `Abstract`, in
row-scan order. -/
def abstractValues (rows : List Row) : List String :=
  (rows.filterMap rowLabelValue?).filterMap (fun lv =>
    if lv.1 = "Abstract" then some lv.2 else none)

/-- Spec wording for the abstract field: last `Abstract` row wins, empty
when there is none. -/
def abstractSpec (rows : List Row) : String :=
  (abstractValues rows).getLastD ""

/-- The cleaned values of the complete rows labelled `Date`, in row-scan
order. -/
def dateValues (rows : List Row) : List String :=
  (rows.filterMap rowLabelValue?).filterMap (fun lv =>
    if lv.1 = "Date" then some lv.2 else none)

/-- The year field determined by the last `Date` row, empty when there is
none. -/
def yearSpec (rows : List Row) : String :=
  match (dateValues rows).getLast? with
  | some v => extract_year_from_date v
  | none => ""

/-- Four characters forming `(19|20)\d{2}`. -/
def isYear4 (l : List Char) : Bool :=
  match l with
  | [c1, c2, c3, c4] =>
    ((c1 == '1' && c2 == '9') || (c1 == '2' && c2 == '0'))
      && isDigitChar c3 && isDigitChar c4
  | _ => false

/-- Spec wording of a year match: position `i` of `cs` starts a four-digit
`19xx`/`20xx` number bounded by word boundaries on both sides. -/
def yearBoundedAt (cs : List Char) (i : Nat) : Bool :=
  isYear4 ((cs.drop i).take 4)
    && (i == 0 || !((cs[i - 1]?).any isWordChar))
    && !((cs[i + 4]?).any isWordChar)

/-- The character just before position `k`, `none` at the start. -/
def prevCh (cs : List Char) (k : Nat) : Option Char :=
  if k = 0 then none else cs[k - 1]?

/-- No two consecutive whitespace characters. -/
def noAdjacentWs : List Char → Bool
  | a :: b :: rest => !(isPySpace a && isPySpace b) && noAdjacentWs (b :: rest)
  | _ => true

/-- A well-formed field value: no CR or LF, no two consecutive whitespace
characters, no leading or trailing whitespace. -/
def wfField (s : String) : Bool :=
  s.data.all (fun c => !(c == '\n') && !(c == '\r'))
    && noAdjacentWs s.data
    && !((s.data.head?).any isPySpace)
    && !((s.data.getLast?).any isPySpace)

/-! ### Concrete sample inputs used by examples and witnesses -/

/-- An entry with a title and no table. -/
def entryTitled : Entry :=
  { title := some "Study A", table := none }

/-- An entry with a `Proceedings Title` row before a `Publisher` row. -/
def entryPT : Entry :=
  { title := some "Study A",
    table := some [
      { th := some { cls := none, text := "Proceedings Title" }, td := some "X" },
      { th := some { cls := none, text := "Publisher" }, td := some "Y" } ] }

/-- `entryPT` with the two journal-group rows in the opposite order. -/
def entryTP : Entry :=
  { title := some "Study A",
    table := some [
      { th := some { cls := none, text := "Publisher" }, td := some "Y" },
      { th := some { cls := none, text := "Proceedings Title" }, td := some "X" } ] }

/-- An entry whose second `Date` row has no `19xx`/`20xx` match. -/
def entryDD : Entry :=
  { title := some "Study A",
    table := some [
      { th := some { cls := none, text := "Date" }, td := some "2019-05" },
      { th := some { cls := none, text := "Date" }, td := some "n/a" } ] }

/-- An entry with two `Abstract` rows. -/
def entryAA : Entry :=
  { title := some "Study A",
    table := some [
      { th := some { cls := none, text := "Abstract" }, td := some "First" },
      { th := some { cls := none, text := "Abstract" }, td := some "Second" } ] }

/-- An entry with a single `Date` row. -/
def entryD1 : Entry :=
  { title := some "Study A",
    table := some [
      { th := some { cls := none, text := "Date" }, td := some "2019-05" } ] }

/-! ### Lemmas about the row scan -/

theorem scanRow_title (acc : Record) (r : Row) :
    (scanRow acc r).title = acc.title := by
  rcases r with ⟨th, td⟩
  cases th <;> cases td <;> simp only [scanRow] <;>
    first
      | rfl
      | (repeat' split) <;> rfl

theorem scanRow_authors (acc : Record) (r : Row) :
    (scanRow acc r).authors = acc.authors := by
  rcases r with ⟨th, td⟩
  cases th <;> cases td <;> simp only [scanRow] <;>
    first
      | rfl
      | (repeat' split) <;> rfl

theorem scanRow_journal (acc : Record) (r : Row) :
    (scanRow acc r).journal =
      match rowLabelValue? r with
      | some lv =>
        if lv.1 ∈ journalLabels ∧ acc.journal = "" then lv.2 else acc.journal
      | none => acc.journal := by
  rcases r with ⟨th, td⟩
  cases th with
  | none => rfl
  | some thc =>
    cases td with
    | none => rfl
    | some tdv =>
      simp only [scanRow, rowLabelValue?]
      by_cases hd : thc.text = "Date"
      · have hnj : "Date" ∉ journalLabels := by decide
        simp [hd, hnj]
      · by_cases hj : thc.text ∈ journalLabels
        · by_cases he : acc.journal = "" <;> simp [hd, hj, he]
        · have hja : "Abstract" ∉ journalLabels := by decide
          by_cases ha : thc.text = "Abstract" <;> simp [hd, hj, ha, hja]

theorem scanRow_abstract (acc : Record) (r : Row) :
    (scanRow acc r).abstract =
      match rowLabelValue? r with
      | some lv => if lv.1 = "Abstract" then lv.2 else acc.abstract
      | none => acc.abstract := by
  rcases r with ⟨th, td⟩
  cases th with
  | none => rfl
  | some thc =>
    cases td with
    | none => rfl
    | some tdv =>
      simp only [scanRow, rowLabelValue?]
      by_cases hd : thc.text = "Date"
      · have : ¬("Date" = "Abstract") := by decide
        simp [hd, this]
      · by_cases hj : thc.text ∈ journalLabels
        · have hna : thc.text ≠ "Abstract" := by
            intro h
            rw [h] at hj
            revert hj
            decide
          by_cases he : acc.journal = "" <;> simp [hd, hj, he, hna]
        · have hja : "Abstract" ∉ journalLabels := by decide
          by_cases ha : thc.text = "Abstract" <;> simp [hd, hj, ha, hja]

theorem scanRow_year (acc : Record) (r : Row) :
    (scanRow acc r).year =
      match rowLabelValue? r with
      | some lv => if lv.1 = "Date" then extract_year_from_date lv.2 else acc.year
      | none => acc.year := by
  rcases r with ⟨th, td⟩
  cases th with
  | none => rfl
  | some thc =>
    cases td with
    | none => rfl
    | some tdv =>
      simp only [scanRow, rowLabelValue?]
      by_cases hd : thc.text = "Date"
      · simp [hd]
      · by_cases hj : thc.text ∈ journalLabels
        · by_cases he : acc.journal = "" <;> simp [hd, hj, he]
        · have hja : "Abstract" ∉ journalLabels := by decide
          by_cases ha : thc.text = "Abstract" <;> simp [hd, hj, ha, hja]

theorem foldl_scanRow_title (rows : List Row) (acc : Record) :
    (rows.foldl scanRow acc).title = acc.title := by
  induction rows generalizing acc with
  | nil => rfl
  | cons r rows ih => rw [List.foldl_cons, ih, scanRow_title]

theorem foldl_scanRow_authors (rows : List Row) (acc : Record) :
    (rows.foldl scanRow acc).authors = acc.authors := by
  induction rows generalizing acc with
  | nil => rfl
  | cons r rows ih => rw [List.foldl_cons, ih, scanRow_authors]

theorem foldl_scanRow_journal (rows : List Row) (acc : Record) :
    (rows.foldl scanRow acc).journal =
      if acc.journal = "" then journalSpec rows else acc.journal := by
  induction rows generalizing acc with
  | nil =>
    by_cases he : acc.journal = "" <;> simp [journalSpec, he]
  | cons r rows ih =>
    simp only [List.foldl_cons, ih, scanRow_journal]
    rcases hr : rowLabelValue? r with _ | lv
    · simp [journalSpec, List.filterMap_cons, hr]
    · by_cases hjm : lv.1 ∈ journalLabels
      · by_cases he : acc.journal = ""
        · by_cases hv : lv.2 = ""
          · simp [journalSpec, List.filterMap_cons, hr, hjm, he, hv]
          · simp [journalSpec, List.filterMap_cons, hr, hjm, he, hv]
        · simp [journalSpec, List.filterMap_cons, hr, hjm, he]
      · simp [journalSpec, List.filterMap_cons, hr, hjm]

theorem foldl_scanRow_abstract (rows : List Row) (acc : Record) :
    (rows.foldl scanRow acc).abstract =
      (abstractValues rows).getLastD acc.abstract := by
  induction rows generalizing acc with
  | nil => simp [abstractValues]
  | cons r rows ih =>
    rw [List.foldl_cons, ih]
    rcases hr : rowLabelValue? r with _ | lv
    · have h2 : abstractValues (r :: rows) = abstractValues rows := by
        simp [abstractValues, List.filterMap_cons, hr]
      rw [scanRow_abstract, hr, h2]
    · by_cases ha : lv.1 = "Abstract"
      · have h2 : abstractValues (r :: rows) = lv.2 :: abstractValues rows := by
          simp [abstractValues, List.filterMap_cons, hr, ha]
        rw [scanRow_abstract, hr, h2, List.getLastD_cons]
        simp [ha]
      · have h2 : abstractValues (r :: rows) = abstractValues rows := by
          simp [abstractValues, List.filterMap_cons, hr, ha]
        rw [scanRow_abstract, hr, h2]
        simp [ha]

theorem foldl_scanRow_year (rows : List Row) (acc : Record) :
    (rows.foldl scanRow acc).year =
      match (dateValues rows).getLast? with
      | some v => extract_year_from_date v
      | none => acc.year := by
  induction rows generalizing acc with
  | nil => simp [dateValues]
  | cons r rows ih =>
    simp only [List.foldl_cons, ih, scanRow_year]
    rcases hr : rowLabelValue? r with _ | lv
    · simp [dateValues, List.filterMap_cons, hr]
    · by_cases hdl : lv.1 = "Date"
      · simp only [dateValues, List.filterMap_cons, hr, hdl, if_pos]
        rcases hlast : ((rows.filterMap rowLabelValue?).filterMap (fun lv =>
            if lv.1 = "Date" then some lv.2 else none)).getLast? with _ | w
        · simp [List.getLast?_cons, hlast]
        · simp [List.getLast?_cons, hlast]
      · simp [dateValues, List.filterMap_cons, hr, hdl]

/-! ### Field characterizations of `parse_article` -/

theorem parse_article_title_eq (e : Entry) :
    (parse_article e).title =
      match e.title with
      | some t => clean_text t
      | none => "" := by
  rcases e with ⟨t, tb⟩
  cases t <;> cases tb <;>
    simp [parse_article, foldl_scanRow_title]

theorem parse_article_authors_eq (e : Entry) :
    (parse_article e).authors =
      match e.table with
      | some rows => format_authors (collectAuthors rows)
      | none => "" := by
  rcases e with ⟨t, tb⟩
  cases t <;> cases tb <;>
    simp [parse_article, foldl_scanRow_authors]

theorem parse_article_journal_eq (e : Entry) :
    (parse_article e).journal =
      match e.table with
      | some rows => journalSpec rows
      | none => "" := by
  rcases e with ⟨t, tb⟩
  cases t <;> cases tb <;>
    simp [parse_article, foldl_scanRow_journal]

theorem parse_article_abstract_eq (e : Entry) :
    (parse_article e).abstract =
      match e.table with
      | some rows => abstractSpec rows
      | none => "" := by
  rcases e with ⟨t, tb⟩
  cases t <;> cases tb <;>
    simp [parse_article, foldl_scanRow_abstract, abstractSpec]

theorem parse_article_year_eq (e : Entry) :
    (parse_article e).year =
      match e.table with
      | some rows => yearSpec rows
      | none => "" := by
  rcases e with ⟨t, tb⟩
  cases t <;> cases tb <;>
    simp [parse_article, foldl_scanRow_year, yearSpec]

/-! ### Lemmas about the report loop -/

theorem reportStep_foldl (items : List Item) (acc : List Record) :
    items.foldl reportStep acc = acc ++ items.filterMap extractedRecord? := by
  induction items generalizing acc with
  | nil => simp
  | cons it items ih =>
    cases it with
    | fault => simp [List.foldl_cons, reportStep, extractedRecord?, ih]
    | ok e =>
      simp only [List.foldl_cons, reportStep, List.filterMap_cons, extractedRecord?]
      by_cases h : (parse_article e).title = "" <;> simp [h, ih]

theorem parse_report_eq (items : List Item) :
    parse_zotero_html_report items = items.filterMap extractedRecord? := by
  simpa using reportStep_foldl items []

/-! ### Claim theorems on the record and report level -/

/-- C1: every record in the output of `parse_zotero_html_report` has a
non-empty title; an entry whose extracted title is empty produces no
output record. -/
theorem claim_title_invariant (items : List Item) (r : Record)
    (hr : r ∈ parse_zotero_html_report items) : r.title ≠ "" := by
  rw [parse_report_eq] at hr
  rcases List.mem_filterMap.mp hr with ⟨it, _, h⟩
  cases it with
  | fault => simp [extractedRecord?] at h
  | ok e =>
    simp only [extractedRecord?] at h
    by_cases ht : (parse_article e).title = ""
    · simp [ht] at h
    · simp only [ne_eq, ht, not_false_eq_true, if_true, Option.some.injEq] at h
      rw [← h]
      exact ht

/-- Witness for C1 at a concrete run. -/
theorem claim_title_invariant_witness :
    (parse_article entryTitled).title ≠ "" :=
  claim_title_invariant [Item.ok entryTitled] (parse_article entryTitled) (by decide)

/-- C8: the output of `parse_zotero_html_report` is exactly the ordered
sequence of extracted records of the title-bearing, non-faulting entries,
in document order. -/
theorem claim_output_order (items : List Item) :
    parse_zotero_html_report items = items.filterMap extractedRecord? :=
  parse_report_eq items

/-- C4: the journal field is the cleaned value of the first row in
row-scan order whose label is in the `Publication`/`Proceedings Title`/
`Publisher` group and whose cleaned value is non-empty; in particular
`Proceedings Title = "X"` before `Publisher = "Y"` yields `"X"`, and the
reversed order yields `"Y"`. -/
theorem claim_journal_first_match :
    (∀ e : Entry, (parse_article e).journal =
      match e.table with
      | some rows => journalSpec rows
      | none => "")
    ∧ (parse_article entryPT).journal = "X"
    ∧ (parse_article entryTP).journal = "Y" :=
  ⟨parse_article_journal_eq, by decide, by decide⟩

/-- C6: the abstract field is the cleaned value of the last `Abstract`
row in row-scan order, and empty when there is no such row. -/
theorem claim_abstract_last_wins :
    (∀ e : Entry, (parse_article e).abstract =
      match e.table with
      | some rows => abstractSpec rows
      | none => "")
    ∧ (parse_article entryAA).abstract = "Second"
    ∧ (parse_article entryTitled).abstract = "" :=
  ⟨parse_article_abstract_eq, by decide, by decide⟩

/-- C9: the year field is determined by the last `Date` row in row-scan
order; a later `Date` row whose value has no `19xx`/`20xx` match resets
the field to the empty string. -/
theorem claim_year_last_date_wins :
    (∀ e : Entry, (parse_article e).year =
      match e.table with
      | some rows => yearSpec rows
      | none => "")
    ∧ (parse_article entryD1).year = "2019"
    ∧ (parse_article entryDD).year = "" :=
  ⟨parse_article_year_eq, by decide, by decide⟩

/-- C7: a faulting entry is skipped and the rest of the run proceeds
unchanged; when all other entries contribute a record, the output has
exactly N-1 records, and the run never fails as a whole. -/
theorem claim_fault_skip (pre post : List Item) :
    parse_zotero_html_report (pre ++ Item.fault :: post) =
      parse_zotero_html_report (pre ++ post)
    ∧ (parse_zotero_html_report (pre ++ Item.fault :: post)).length ≤
        pre.length + post.length
    ∧ ((∀ it ∈ pre ++ post, (extractedRecord? it).isSome) →
        (parse_zotero_html_report (pre ++ Item.fault :: post)).length =
          pre.length + post.length) := by
  have heq : parse_zotero_html_report (pre ++ Item.fault :: post) =
      parse_zotero_html_report (pre ++ post) := by
    rw [parse_report_eq, parse_report_eq, List.filterMap_append, List.filterMap_append,
      List.filterMap_cons]
    rfl
  refine ⟨heq, ?_, ?_⟩
  · rw [heq, parse_report_eq]
    calc ((pre ++ post).filterMap extractedRecord?).length
        ≤ (pre ++ post).length := List.length_filterMap_le _ _
      _ = pre.length + post.length := List.length_append _ _
  · intro hall
    rw [heq, parse_report_eq]
    rw [List.filterMap_length_eq_length.mpr hall, List.length_append]

/-- Witness for C7 at a concrete run. -/
theorem claim_fault_skip_witness :
    (parse_zotero_html_report [Item.ok entryTitled, Item.fault]).length = 1 :=
  (claim_fault_skip [Item.ok entryTitled] []).2.2 (by decide)

/-! ### Text cleaning: split/join machinery -/

theorem splitWsAux_tokens_wf (cs : List Char) :
    ∀ acc, (∀ c ∈ acc, isPySpace c = false) →
      ∀ t ∈ splitWsAux cs acc, t ≠ [] ∧ ∀ c ∈ t, isPySpace c = false := by
  induction cs with
  | nil =>
    intro acc hacc t ht
    rcases acc with _ | ⟨a, as⟩
    · simp [splitWsAux] at ht
    · simp only [splitWsAux, List.isEmpty_cons, List.mem_singleton] at ht
      simp only [Bool.false_eq_true, if_false, List.mem_singleton] at ht
      subst ht
      refine ⟨by simp, ?_⟩
      intro c hc
      exact hacc c (List.mem_reverse.mp hc)
  | cons c cs ih =>
    intro acc hacc t ht
    by_cases hp : isPySpace c
    · rcases acc with _ | ⟨a, as⟩
      · simp only [splitWsAux, hp, if_true, List.isEmpty_nil] at ht
        exact ih [] (by simp) t ht
      · simp only [splitWsAux, hp, if_true, List.isEmpty_cons, Bool.false_eq_true,
          if_false, List.mem_cons] at ht
        rcases ht with h1 | h2
        · subst h1
          refine ⟨by simp, ?_⟩
          intro x hx
          exact hacc x (List.mem_reverse.mp hx)
        · exact ih [] (by simp) t h2
    · simp only [splitWsAux, hp, Bool.false_eq_true, if_false] at ht
      refine ih (c :: acc) ?_ t ht
      intro x hx
      rcases List.mem_cons.mp hx with h | h
      · rw [h]
        simpa using hp
      · exact hacc x h

theorem splitWsAux_dropWhile (cs : List Char) :
    splitWsAux (cs.dropWhile isPySpace) [] = splitWsAux cs [] := by
  induction cs with
  | nil => rfl
  | cons c cs ih =>
    by_cases hp : isPySpace c
    · rw [List.dropWhile_cons_of_pos hp, ih]
      simp [splitWsAux, hp]
    · rw [List.dropWhile_cons_of_neg (by simpa using hp)]

theorem splitWsAux_space_nil (ws : List Char) (h : ∀ c ∈ ws, isPySpace c) :
    splitWsAux ws [] = [] := by
  induction ws with
  | nil => rfl
  | cons c ws ih =>
    have hc := h c (by simp)
    simp only [splitWsAux, hc, if_true, List.isEmpty_nil]
    exact ih (fun x hx => h x (by simp [hx]))

theorem splitWsAux_space_acc (ws : List Char) (h : ∀ c ∈ ws, isPySpace c) (acc : List Char) :
    splitWsAux ws acc = if acc.isEmpty then [] else [acc.reverse] := by
  cases ws with
  | nil => rfl
  | cons c ws =>
    have hc := h c (by simp)
    have hrest : splitWsAux ws [] = [] :=
      splitWsAux_space_nil ws (fun x hx => h x (by simp [hx]))
    rcases acc with _ | ⟨a, as⟩
    · simp [splitWsAux, hc, hrest]
    · simp [splitWsAux, hc, hrest]

theorem splitWsAux_append_space (ws : List Char) (hws : ∀ c ∈ ws, isPySpace c) :
    ∀ cs acc, splitWsAux (cs ++ ws) acc = splitWsAux cs acc := by
  intro cs
  induction cs with
  | nil =>
    intro acc
    rw [List.nil_append, splitWsAux_space_acc ws hws acc]
    rfl
  | cons c cs ih =>
    intro acc
    rw [List.cons_append]
    by_cases hp : isPySpace c
    · rcases acc with _ | ⟨a, as⟩
      · simp only [splitWsAux, hp, if_true, List.isEmpty_nil]
        exact ih []
      · simp only [splitWsAux, hp, if_true, List.isEmpty_cons, Bool.false_eq_true, if_false]
        rw [ih []]
    · simp only [splitWsAux, hp, Bool.false_eq_true, if_false]
      exact ih (c :: acc)

theorem dropTrailingWs_decomp (l : List Char) :
    l = dropTrailingWs l ++ (l.reverse.takeWhile isPySpace).reverse := by
  calc l = l.reverse.reverse := (List.reverse_reverse l).symm
    _ = (l.reverse.takeWhile isPySpace ++ l.reverse.dropWhile isPySpace).reverse := by
        rw [List.takeWhile_append_dropWhile]
    _ = (l.reverse.dropWhile isPySpace).reverse ++ (l.reverse.takeWhile isPySpace).reverse :=
        List.reverse_append _ _
    _ = dropTrailingWs l ++ (l.reverse.takeWhile isPySpace).reverse := rfl

theorem takeWhile_rev_space (l : List Char) :
    ∀ c ∈ (l.reverse.takeWhile isPySpace).reverse, isPySpace c :=
  fun _ hc => List.mem_takeWhile_imp (List.mem_reverse.mp hc)

theorem pySplitL_strip (cs : List Char) :
    pySplitL (pyStripL cs) = pySplitL cs := by
  unfold pySplitL pyStripL
  have h1 : splitWsAux (dropTrailingWs (cs.dropWhile isPySpace) ++
      ((cs.dropWhile isPySpace).reverse.takeWhile isPySpace).reverse) [] =
      splitWsAux (dropTrailingWs (cs.dropWhile isPySpace)) [] :=
    splitWsAux_append_space _ (takeWhile_rev_space _) _ []
  have h2 : dropTrailingWs (cs.dropWhile isPySpace) ++
      ((cs.dropWhile isPySpace).reverse.takeWhile isPySpace).reverse =
      cs.dropWhile isPySpace := (dropTrailingWs_decomp _).symm
  rw [h2] at h1
  rw [← h1]
  exact splitWsAux_dropWhile cs

theorem pyStripL_eq_nil_iff (cs : List Char) :
    pyStripL cs = [] ↔ ∀ c ∈ cs, isPySpace c := by
  unfold pyStripL dropTrailingWs
  constructor
  · intro h
    have h1 : (cs.dropWhile isPySpace).reverse.dropWhile isPySpace = [] := by
      have := congrArg List.reverse h
      simpa using this
    have h3 : ∀ c ∈ cs.dropWhile isPySpace, isPySpace c := fun c hc =>
      List.dropWhile_eq_nil_iff.mp h1 c (List.mem_reverse.mpr hc)
    intro c hc
    have hsplit : c ∈ cs.takeWhile isPySpace ++ cs.dropWhile isPySpace := by
      rw [List.takeWhile_append_dropWhile]
      exact hc
    rcases List.mem_append.mp hsplit with h | h
    · exact List.mem_takeWhile_imp h
    · exact h3 c h
  · intro h
    rw [List.dropWhile_eq_nil_iff.mpr h]
    rfl



theorem splitWsAux_token_append :
    ∀ (t : List Char), (∀ c ∈ t, isPySpace c = false) →
      ∀ cs acc, splitWsAux (t ++ cs) acc = splitWsAux cs (t.reverse ++ acc) := by
  intro t
  induction t with
  | nil => intro _ cs acc; rfl
  | cons c t ih =>
    intro h cs acc
    have hc : isPySpace c = false := h c (by simp)
    simp only [List.cons_append, splitWsAux, hc, Bool.false_eq_true, if_false]
    have hrec := ih (fun x hx => h x (by simp [hx])) cs (c :: acc)
    rw [show (t.append cs) = t ++ cs from rfl, hrec]
    simp [List.reverse_cons, List.append_assoc]

theorem pySplitL_join (toks : List (List Char))
    (h : ∀ t ∈ toks, t ≠ [] ∧ ∀ c ∈ t, isPySpace c = false) :
    pySplitL (joinSpaceL toks) = toks := by
  induction toks with
  | nil => rfl
  | cons t toks ih =>
    rcases toks with _ | ⟨u, rest⟩
    · obtain ⟨hne, hws⟩ := h t (by simp)
      unfold pySplitL
      have hj : joinSpaceL [t] = t ++ [] := by simp [joinSpaceL]
      rw [hj, splitWsAux_token_append t hws [] [], List.append_nil]
      rcases ht : t.reverse with _ | ⟨a, as⟩
      · exact absurd (by simpa using ht) hne
      · simp only [splitWsAux, List.isEmpty_cons, Bool.false_eq_true, if_false]
        rw [← ht, List.reverse_reverse]
    · obtain ⟨hne, hws⟩ := h t (by simp)
      unfold pySplitL
      have hj : joinSpaceL (t :: u :: rest) = t ++ ' ' :: joinSpaceL (u :: rest) := rfl
      rw [hj, splitWsAux_token_append t hws _ []]
      have hsp : isPySpace ' ' = true := by decide
      have hacc : (t.reverse ++ []).isEmpty = false := by
        rcases ht : t.reverse with _ | ⟨a, as⟩
        · exact absurd (by simpa using ht) hne
        · rfl
      simp only [splitWsAux, hsp, if_true, hacc, Bool.false_eq_true, if_false]
      have ihr := ih (fun x hx => h x (by simp [hx]))
      unfold pySplitL at ihr
      rw [ihr]
      simp

theorem joinSpaceL_ne_nil (toks : List (List Char))
    (h : ∀ t ∈ toks, t ≠ [] ∧ ∀ c ∈ t, isPySpace c = false)
    (hne : toks ≠ []) : joinSpaceL toks ≠ [] := by
  rcases toks with _ | ⟨t, toks⟩
  · exact absurd rfl hne
  · obtain ⟨htne, _⟩ := h t (by simp)
    rcases toks with _ | ⟨u, rest⟩
    · simpa [joinSpaceL] using htne
    · have : joinSpaceL (t :: u :: rest) = t ++ ' ' :: joinSpaceL (u :: rest) := rfl
      rw [this]
      simp

theorem joinSpaceL_chars (toks : List (List Char))
    (h : ∀ t ∈ toks, t ≠ [] ∧ ∀ c ∈ t, isPySpace c = false) :
    ∀ c ∈ joinSpaceL toks, c = ' ' ∨ isPySpace c = false := by
  induction toks with
  | nil => simp [joinSpaceL]
  | cons t toks ih =>
    rcases toks with _ | ⟨u, rest⟩
    · intro c hc
      right
      exact (h t (by simp)).2 c (by simpa [joinSpaceL] using hc)
    · intro c hc
      have hj : joinSpaceL (t :: u :: rest) = t ++ ' ' :: joinSpaceL (u :: rest) := rfl
      rw [hj] at hc
      rcases List.mem_append.mp hc with h1 | h2
      · right
        exact (h t (by simp)).2 c h1
      · rcases List.mem_cons.mp h2 with h3 | h4
        · left; exact h3
        · exact ih (fun x hx => h x (by simp [hx])) c h4

theorem pyReplaceNewlines_id (l : List Char)
    (h : ∀ c ∈ l, ¬(c = '\n' ∨ c = '\r')) : pyReplaceNewlines l = l := by
  unfold pyReplaceNewlines
  conv_rhs => rw [← List.map_id l]
  apply List.map_congr_left
  intro c hc
  have := h c hc
  have hn : (c == '\n' || c == '\r') = false := by
    rcases hb : (c == '\n' || c == '\r') with _ | _
    · rfl
    · exfalso
      rcases Bool.or_eq_true_iff.mp hb with h1 | h1
      · exact this (Or.inl (by simpa using h1))
      · exact this (Or.inr (by simpa using h1))
  simp only [hn, Bool.false_eq_true, if_false, id]



theorem clean_text_eq_mk (s : String) (hs : s ≠ "") :
    clean_text s = String.mk (joinSpaceL (pySplitL (pyReplaceNewlines s.data))) := by
  unfold clean_text
  rw [if_neg hs]

theorem clean_text_tokens_wf (s : String) :
    ∀ t ∈ pySplitL (pyReplaceNewlines s.data), t ≠ [] ∧ ∀ c ∈ t, isPySpace c = false :=
  splitWsAux_tokens_wf _ [] (by simp)

theorem clean_text_data (s : String) (hs : s ≠ "") :
    (clean_text s).data = joinSpaceL (pySplitL (pyReplaceNewlines s.data)) := by
  rw [clean_text_eq_mk s hs]

theorem clean_text_idem (x : String) : clean_text (clean_text x) = clean_text x := by
  by_cases hx : x = ""
  · rw [hx]
    decide
  · have hwf := clean_text_tokens_wf x
    have hdata := clean_text_data x hx
    by_cases hs : clean_text x = ""
    · rw [hs]
      decide
    · have hrepl : pyReplaceNewlines (clean_text x).data = (clean_text x).data := by
        apply pyReplaceNewlines_id
        intro c hc
        rw [hdata] at hc
        rcases joinSpaceL_chars _ hwf c hc with h | h
        · rw [h]
          rintro (h1 | h1) <;> exact absurd h1 (by decide)
        · rintro (h1 | h1) <;> (rw [h1] at h; exact absurd h (by decide))
      rw [clean_text_eq_mk _ hs, hrepl, hdata, pySplitL_join _ hwf, ← hdata]



theorem dropWhile_head_not (p : Char → Bool) :
    ∀ (l : List Char) (c : Char) (rest : List Char),
      l.dropWhile p = c :: rest → p c = false := by
  intro l
  induction l with
  | nil =>
    intro c rest h
    simp at h
  | cons a l ih =>
    intro c rest h
    by_cases hp : p a
    · rw [List.dropWhile_cons_of_pos hp] at h
      exact ih c rest h
    · rw [List.dropWhile_cons_of_neg (by simpa using hp)] at h
      cases h
      simpa using hp

theorem collapseWs_nil : collapseWs [] = [] := by
  simp [collapseWs]

theorem collapseWs_cons_pos (c : Char) (cs : List Char) (h : isPySpace c) :
    collapseWs (c :: cs) = ' ' :: collapseWs (cs.dropWhile isPySpace) := by
  rw [collapseWs]
  simp [h]

theorem collapseWs_cons_neg (c : Char) (cs : List Char) (h : isPySpace c = false) :
    collapseWs (c :: cs) = c :: collapseWs cs := by
  rw [collapseWs]
  simp [h]

theorem dropWhile_collapse_drop (l : List Char) :
    (collapseWs (l.dropWhile isPySpace)).dropWhile isPySpace =
      collapseWs (l.dropWhile isPySpace) := by
  rcases hd : l.dropWhile isPySpace with _ | ⟨c, rest⟩
  · simp [collapseWs_nil]
  · have hc := dropWhile_head_not isPySpace l c rest hd
    rw [collapseWs_cons_neg c rest hc]
    rw [List.dropWhile_cons_of_neg (by simpa using hc)]

theorem dropWhile_collapse (cs : List Char) :
    (collapseWs cs).dropWhile isPySpace = collapseWs (cs.dropWhile isPySpace) := by
  rcases cs with _ | ⟨c, cs⟩
  · simp [collapseWs_nil]
  · by_cases hp : isPySpace c
    · rw [collapseWs_cons_pos c cs hp, List.dropWhile_cons_of_pos (by decide),
        List.dropWhile_cons_of_pos hp]
      exact dropWhile_collapse_drop cs
    · rw [collapseWs_cons_neg c cs (by simpa using hp),
        List.dropWhile_cons_of_neg (by simpa using hp),
        List.dropWhile_cons_of_neg (by simpa using hp),
        collapseWs_cons_neg c cs (by simpa using hp)]

theorem dropTrailingWs_nil : dropTrailingWs [] = [] := rfl

theorem dropTrailingWs_cons_keep (c : Char) (l : List Char)
    (h : isPySpace c = false ∨ ∃ x ∈ l, isPySpace x = false) :
    dropTrailingWs (c :: l) = c :: dropTrailingWs l := by
  unfold dropTrailingWs
  rw [List.reverse_cons, List.dropWhile_append]
  rcases he : (l.reverse.dropWhile isPySpace).isEmpty with _ | _
  · simp only [Bool.false_eq_true, if_false]
    rw [List.reverse_append]
    simp
  · have hnil : l.reverse.dropWhile isPySpace = [] := List.isEmpty_iff.mp he
    have hall : ∀ x ∈ l.reverse, isPySpace x := List.dropWhile_eq_nil_iff.mp hnil
    have hc : isPySpace c = false := by
      rcases h with h | ⟨x, hx, hxf⟩
      · exact h
      · exact absurd (hall x (List.mem_reverse.mpr hx)) (by simp [hxf])
    simp [hnil, hc]



theorem splitWsAux_acc_ne_nil :
    ∀ (cs acc : List Char), acc ≠ [] → splitWsAux cs acc ≠ [] := by
  intro cs
  induction cs with
  | nil =>
    intro acc hacc
    rcases acc with _ | ⟨a, as⟩
    · exact absurd rfl hacc
    · simp [splitWsAux]
  | cons c cs ih =>
    intro acc hacc
    by_cases hp : isPySpace c
    · rcases acc with _ | ⟨a, as⟩
      · exact absurd rfl hacc
      · simp [splitWsAux, hp]
    · have hpb : isPySpace c = false := by simpa using hp
      simp only [splitWsAux, hpb, Bool.false_eq_true, if_false]
      exact ih (c :: acc) (by simp)

theorem joinSpaceL_cons_ne (t : List Char) (l : List (List Char)) (hl : l ≠ []) :
    joinSpaceL (t :: l) = t ++ ' ' :: joinSpaceL l := by
  rcases l with _ | ⟨u, rest⟩
  · exact absurd rfl hl
  · rfl

theorem splitWsAux_join_acc :
    ∀ (n : Nat) (cs : List Char), cs.length ≤ n →
      ∀ acc, acc ≠ [] →
        joinSpaceL (splitWsAux cs acc) = acc.reverse ++ dropTrailingWs (collapseWs cs) := by
  intro n
  induction n with
  | zero =>
    intro cs hcs acc hacc
    have hnil : cs = [] := List.length_eq_zero.mp (Nat.le_zero.mp hcs)
    subst hnil
    rcases acc with _ | ⟨a, as⟩
    · exact absurd rfl hacc
    · simp [splitWsAux, joinSpaceL, collapseWs_nil, dropTrailingWs_nil]
  | succ n ih =>
    intro cs hcs acc hacc
    rcases cs with _ | ⟨c, cs⟩
    · rcases acc with _ | ⟨a, as⟩
      · exact absurd rfl hacc
      · simp [splitWsAux, joinSpaceL, collapseWs_nil, dropTrailingWs_nil]
    · by_cases hp : isPySpace c
      · rcases acc with _ | ⟨a, as⟩
        · exact absurd rfl hacc
        · simp only [splitWsAux, hp, if_true, List.isEmpty_cons, Bool.false_eq_true, if_false]
          rcases hd : cs.dropWhile isPySpace with _ | ⟨c2, d2⟩
          · have hempty : splitWsAux cs [] = [] := by
              rw [← splitWsAux_dropWhile, hd]
              rfl
            rw [hempty, collapseWs_cons_pos c cs hp, hd, collapseWs_nil]
            have hsp : dropTrailingWs [' '] = [] := by decide
            rw [hsp]
            simp [joinSpaceL]
          · have hc2 : isPySpace c2 = false := dropWhile_head_not _ cs c2 d2 hd
            have hsplit : splitWsAux cs [] = splitWsAux d2 [c2] := by
              rw [← splitWsAux_dropWhile, hd]
              simp only [splitWsAux, hc2, Bool.false_eq_true, if_false]
            have hlen : d2.length ≤ n := by
              have h1 : (c2 :: d2).length ≤ cs.length := by
                rw [← hd]
                exact (List.dropWhile_sublist _).length_le
              simp only [List.length_cons] at h1 hcs
              omega
            have hne2 : splitWsAux d2 [c2] ≠ [] := splitWsAux_acc_ne_nil d2 [c2] (by simp)
            rw [hsplit, joinSpaceL_cons_ne _ _ hne2, ih d2 hlen [c2] (by simp),
              collapseWs_cons_pos c cs hp, hd, collapseWs_cons_neg c2 d2 hc2,
              dropTrailingWs_cons_keep ' ' (c2 :: collapseWs d2) (Or.inr ⟨c2, by simp, hc2⟩),
              dropTrailingWs_cons_keep c2 (collapseWs d2) (Or.inl hc2)]
            simp
      · have hpb : isPySpace c = false := by simpa using hp
        simp only [splitWsAux, hpb, Bool.false_eq_true, if_false]
        have hlen : cs.length ≤ n := by
          simp only [List.length_cons] at hcs
          omega
        rw [ih cs hlen (c :: acc) (by simp), collapseWs_cons_neg c cs hpb,
          dropTrailingWs_cons_keep c (collapseWs cs) (Or.inl hpb)]
        simp [List.reverse_cons, List.append_assoc]

theorem joinSpaceL_pySplitL (cs : List Char) :
    joinSpaceL (pySplitL cs) = trimSpec (collapseWs cs) := by
  unfold trimSpec
  rw [dropWhile_collapse]
  unfold pySplitL
  rw [← splitWsAux_dropWhile]
  rcases hd : cs.dropWhile isPySpace with _ | ⟨c, d⟩
  · simp [splitWsAux, joinSpaceL, collapseWs_nil, dropTrailingWs_nil]
  · have hc : isPySpace c = false := dropWhile_head_not _ cs c d hd
    have hstep : splitWsAux (c :: d) [] = splitWsAux d [c] := by
      simp only [splitWsAux, hc, Bool.false_eq_true, if_false]
    rw [hstep, splitWsAux_join_acc d.length d (Nat.le_refl _) [c] (by simp),
      collapseWs_cons_neg c d hc,
      dropTrailingWs_cons_keep c (collapseWs d) (Or.inl hc)]
    simp



theorem clean_text_eq_spec (x : String) : clean_text x = cleanTextSpec x := by
  by_cases hx : x = ""
  · rw [hx]
    unfold cleanTextSpec
    rw [show pyReplaceNewlines ("" : String).data = [] from rfl, collapseWs_nil]
    decide
  · rw [clean_text_eq_mk x hx]
    unfold cleanTextSpec
    exact congrArg String.mk (joinSpaceL_pySplitL _)

/-- C5: `clean_text` equals the spec pipeline (replace CR/LF by spaces,
collapse whitespace runs, trim the ends), is idempotent, and cleans the
spec's example. -/
theorem claim_clean_text :
    (∀ x : String, clean_text x = cleanTextSpec x)
    ∧ (∀ x : String, clean_text (clean_text x) = clean_text x)
    ∧ clean_text "a\n\n  b\r\nc" = "a b c" :=
  ⟨clean_text_eq_spec, clean_text_idem, by decide⟩

theorem extract_last_name_eq (a : String) : extract_last_name a = surnameSpec a := by
  unfold extract_last_name surnameSpec
  unfold pySplit
  have hdata : (pyStrip a).data = pyStripL a.data := rfl
  rw [hdata, pySplitL_strip]

theorem pyStrip_eq_empty_iff (a : String) : pyStrip a = "" ↔ blankSpec a := by
  unfold pyStrip blankSpec
  constructor
  · intro h
    have : pyStripL a.data = [] := congrArg String.data h
    simp only [List.all_eq_true]
    exact fun c hc => (pyStripL_eq_nil_iff a.data).mp this c hc
  · intro h
    have : pyStripL a.data = [] :=
      (pyStripL_eq_nil_iff a.data).mpr (fun c hc => List.all_eq_true.mp h c hc)
    rw [this]

theorem format_authors_eq (l : List String) :
    format_authors l = formatAuthorsSpec l := by
  unfold format_authors formatAuthorsSpec
  have hfilter : (l.filter (fun a => pyStrip a ≠ "")) = (l.filter (fun a => !blankSpec a)) := by
    apply List.filter_congr
    intro a _
    by_cases hb : blankSpec a
    · simp [hb, (pyStrip_eq_empty_iff a).mpr hb]
    · have : ¬(pyStrip a = "") := fun h => hb ((pyStrip_eq_empty_iff a).mp h)
      simp [hb, this]
  have hmap : extract_last_name = surnameSpec := funext extract_last_name_eq
  rw [hfilter, hmap]
  by_cases hl : l = []
  · rw [if_pos hl, hl]
    rfl
  · rw [if_neg hl]
    rcases List.map surnameSpec (List.filter (fun a => !blankSpec a) l) with
      _ | ⟨a, _ | ⟨b, _ | ⟨c, rest⟩⟩⟩ <;> rfl

/-- C2: `format_authors` implements the spec pipeline (drop blank
entries, reduce each name to its last whitespace token or keep a
token-free name unchanged, then apply the 0/1/2/3+ multiplicity rule),
and matches the spec's examples. -/
theorem claim_format_authors :
    (∀ l : List String, format_authors l = formatAuthorsSpec l)
    ∧ format_authors [] = ""
    ∧ format_authors ["Jane Doe"] = "Doe"
    ∧ format_authors ["Jane Doe", "John Q Smith"] = "Doe and Smith"
    ∧ format_authors ["A B", "C D", "E F"] = "B et al" :=
  ⟨format_authors_eq, by decide, by decide, by decide, by decide⟩

/-! ### Year extraction: regex search characterization -/

theorem yearBoundedAt_short (ds : List Char) (i : Nat)
    (h : (ds.drop i).length < 4) : yearBoundedAt ds i = false := by
  unfold yearBoundedAt
  have htake : (ds.drop i).take 4 = ds.drop i :=
    List.take_of_length_le (Nat.le_of_lt h)
  rw [htake]
  rcases hdi : ds.drop i with _ | ⟨a, _ | ⟨b, _ | ⟨c, _ | ⟨d, rest⟩⟩⟩⟩
  · simp [isYear4]
  · simp [isYear4]
  · simp [isYear4]
  · simp [isYear4]
  · rw [hdi] at h
    simp at h
    omega

theorem yearMatchAt_spec (ds : List Char) (k : Nat) :
    yearMatchAt (prevCh ds k) (ds.drop k) =
      if yearBoundedAt ds k then some (String.mk ((ds.drop k).take 4)) else none := by
  rcases hd : ds.drop k with _ | ⟨c1, t1⟩
  · rw [yearBoundedAt_short ds k (by rw [hd]; simp)]
    simp [yearMatchAt]
  rcases t1 with _ | ⟨c2, t2⟩
  · rw [yearBoundedAt_short ds k (by rw [hd]; simp)]
    simp [yearMatchAt]
  rcases t2 with _ | ⟨c3, t3⟩
  · rw [yearBoundedAt_short ds k (by rw [hd]; simp)]
    simp [yearMatchAt]
  rcases t3 with _ | ⟨c4, rest⟩
  · rw [yearBoundedAt_short ds k (by rw [hd]; simp)]
    simp [yearMatchAt]
  have hP : (match prevCh ds k with
      | none => true
      | some b => !isWordChar b) = (k == 0 || !((ds[k - 1]?).any isWordChar)) := by
    rcases k with _ | j
    · simp [prevCh]
    · have hpc : prevCh ds (j + 1) = ds[j]? := by simp [prevCh]
      rw [hpc]
      have hidx : (j + 1) - 1 = j := rfl
      rw [hidx]
      rcases hj : ds[j]? with _ | b <;> simp
  have h45 : ds[k + 4]? = rest.head? := by
    rw [← List.getElem?_drop, hd]
    rcases rest with _ | ⟨r, rest⟩ <;> simp
  have hRgen : ∀ l : List Char, ds[k + 4]? = l.head? →
      (match l with
        | [] => true
        | r :: _ => !isWordChar r) = !((ds[k + 4]?).any isWordChar) := by
    intro l hl
    rw [hl]
    rcases l with _ | ⟨r, l⟩ <;> simp
  have hR := hRgen rest h45
  unfold yearBoundedAt
  rw [hd]
  have htake2 : (c1 :: c2 :: c3 :: c4 :: rest).take 4 = [c1, c2, c3, c4] := rfl
  rw [htake2]
  simp only [yearMatchAt, isYear4]
  rw [hP, hR]



theorem findYear_none (ds : List Char) :
    ∀ (cs : List Char) (k : Nat), ds.drop k = cs →
      (∀ i, k ≤ i → yearBoundedAt ds i = false) →
      findYear (prevCh ds k) cs = none := by
  intro cs
  induction cs with
  | nil =>
    intro k _ _
    rfl
  | cons c cs ih =>
    intro k hdrop hall
    have hm : yearMatchAt (prevCh ds k) (c :: cs) = none := by
      rw [← hdrop, yearMatchAt_spec, hall k (Nat.le_refl k)]
      rfl
    have hnext : prevCh ds (k + 1) = some c := by
      unfold prevCh
      rw [if_neg (Nat.succ_ne_zero k)]
      have h0 : (ds.drop k)[0]? = some c := by
        rw [hdrop]
        simp
      rw [List.getElem?_drop] at h0
      simpa using h0
    have hdrop2 : ds.drop (k + 1) = cs := by
      rw [← List.tail_drop, hdrop]
      simp
    simp only [findYear, hm]
    rw [← hnext]
    exact ih (k + 1) hdrop2 (fun i hi => hall i (Nat.le_of_succ_le hi))

theorem findYear_first (ds : List Char) :
    ∀ (cs : List Char) (k : Nat), ds.drop k = cs →
      ∀ i, k ≤ i → yearBoundedAt ds i = true →
      (∀ j, k ≤ j → j < i → yearBoundedAt ds j = false) →
      findYear (prevCh ds k) cs = some (String.mk ((ds.drop i).take 4)) := by
  intro cs
  induction cs with
  | nil =>
    intro k hdrop i hki hi _
    exfalso
    have hlen : ds.length ≤ k := List.drop_eq_nil_iff.mp hdrop
    have : ds.drop i = [] := List.drop_eq_nil_of_le (Nat.le_trans hlen hki)
    rw [yearBoundedAt_short ds i (by rw [this]; simp)] at hi
    exact Bool.false_ne_true hi
  | cons c cs ih =>
    intro k hdrop i hki hi hmin
    rcases Nat.eq_or_lt_of_le hki with heq | hlt
    · subst heq
      have hm : yearMatchAt (prevCh ds k) (c :: cs) =
          some (String.mk ((ds.drop k).take 4)) := by
        rw [← hdrop, yearMatchAt_spec, hi]
        rfl
      simp only [findYear, hm]
    · have hm : yearMatchAt (prevCh ds k) (c :: cs) = none := by
        rw [← hdrop, yearMatchAt_spec, hmin k (Nat.le_refl k) hlt]
        rfl
      have hnext : prevCh ds (k + 1) = some c := by
        unfold prevCh
        rw [if_neg (Nat.succ_ne_zero k)]
        have h0 : (ds.drop k)[0]? = some c := by
          rw [hdrop]
          simp
        rw [List.getElem?_drop] at h0
        simpa using h0
      have hdrop2 : ds.drop (k + 1) = cs := by
        rw [← List.tail_drop, hdrop]
        simp
      simp only [findYear, hm]
      rw [← hnext]
      exact ih (k + 1) hdrop2 i hlt hi
        (fun j hj1 hj2 => hmin j (Nat.le_of_succ_le hj1) hj2)

/-- C3: `extract_year_from_date` returns the four characters at the first
(leftmost) position carrying a word-bounded `19xx`/`20xx` match, the
empty string when no position does, and handles the spec's examples. -/
theorem claim_extract_year :
    (∀ (s : String) (i : Nat), yearBoundedAt s.data i = true →
        (∀ j, j < i → yearBoundedAt s.data j = false) →
        extract_year_from_date s = String.mk ((s.data.drop i).take 4))
    ∧ (∀ s : String, (∀ i, yearBoundedAt s.data i = false) →
        extract_year_from_date s = "")
    ∧ extract_year_from_date "March 15, 2021" = "2021"
    ∧ extract_year_from_date "circa 1850s" = ""
    ∧ extract_year_from_date "2023-2024 conference" = "2023"
    ∧ extract_year_from_date "" = "" := by
  refine ⟨?_, ?_, by decide, by decide, by decide, by decide⟩
  · intro s i hi hmin
    by_cases hs : s = ""
    · exfalso
      subst hs
      rw [yearBoundedAt_short "".data i (by simp)] at hi
      exact Bool.false_ne_true hi
    · unfold extract_year_from_date
      rw [if_neg hs]
      have h0 : prevCh s.data 0 = none := rfl
      have := findYear_first s.data s.data 0 (List.drop_zero s.data) i (Nat.zero_le i) hi
        (fun j _ hj => hmin j hj)
      rw [h0] at this
      rw [this]
  · intro s hall
    by_cases hs : s = ""
    · subst hs
      rfl
    · unfold extract_year_from_date
      rw [if_neg hs]
      have h0 : prevCh s.data 0 = none := rfl
      have := findYear_none s.data s.data 0 (List.drop_zero s.data)
        (fun i _ => hall i)
      rw [h0] at this
      rw [this]

/-- Witness for C3 at a concrete input. -/
theorem claim_extract_year_witness :
    extract_year_from_date "2023-2024 conference" =
      String.mk ((("2023-2024 conference" : String).data.drop 0).take 4) :=
  claim_extract_year.1 "2023-2024 conference" 0 (by decide)
    (fun j hj => absurd hj (Nat.not_lt_zero j))

/-! ### Field well-formedness -/

theorem digit_not_space (c : Char) (h : isDigitChar c = true) : isPySpace c = false := by
  simp only [isDigitChar, Bool.and_eq_true, decide_eq_true_eq] at h
  simp only [isPySpace, Bool.or_eq_false_iff, beq_eq_false_iff_ne, ne_eq]
  omega

theorem noAdjacentWs_of_wsfree (l : List Char) (h : ∀ c ∈ l, isPySpace c = false) :
    noAdjacentWs l = true := by
  induction l with
  | nil => rfl
  | cons a l ih =>
    rcases l with _ | ⟨b, l2⟩
    · rfl
    · have ha := h a (by simp)
      simp only [noAdjacentWs, ha, Bool.false_and, Bool.not_false, Bool.true_and]
      exact ih (fun c hc => h c (by simp [hc]))

theorem noAdjacentWs_append (ys : List Char) :
    ∀ xs, noAdjacentWs xs = true → noAdjacentWs ys = true →
      (∀ a b, xs.getLast? = some a → ys.head? = some b →
        (!(isPySpace a && isPySpace b)) = true) →
      noAdjacentWs (xs ++ ys) = true := by
  intro xs
  induction xs with
  | nil =>
    intro _ hys _
    simpa using hys
  | cons a xs ih =>
    intro hxs hys hseam
    rcases xs with _ | ⟨a2, xs2⟩
    · rcases ys with _ | ⟨b, ys2⟩
      · simpa using hxs
      · simp only [List.singleton_append, noAdjacentWs]
        exact Bool.and_eq_true_iff.mpr ⟨hseam a b rfl rfl, hys⟩
    · simp only [noAdjacentWs] at hxs
      obtain ⟨h1, h2⟩ := Bool.and_eq_true_iff.mp hxs
      simp only [List.cons_append, noAdjacentWs]
      refine Bool.and_eq_true_iff.mpr ⟨h1, ?_⟩
      have := ih h2 hys (fun x y hx hy =>
        hseam x y (by rw [List.getLast?_cons_cons]; exact hx) hy)
      simpa using this

theorem joinSpaceL_head_not_space (toks : List (List Char))
    (h : ∀ t ∈ toks, t ≠ [] ∧ ∀ c ∈ t, isPySpace c = false) :
    ∀ c, (joinSpaceL toks).head? = some c → isPySpace c = false := by
  rcases toks with _ | ⟨t, toks⟩
  · intro c hc
    simp [joinSpaceL] at hc
  · obtain ⟨hne, hws⟩ := h t (by simp)
    intro c hc
    rcases toks with _ | ⟨u, rest⟩
    · have hh : (joinSpaceL [t]).head? = t.head? := rfl
      rw [hh] at hc
      exact hws c (List.mem_of_mem_head? hc)
    · have hj : joinSpaceL (t :: u :: rest) = t ++ ' ' :: joinSpaceL (u :: rest) := rfl
      rw [hj] at hc
      rcases t with _ | ⟨a, t2⟩
      · exact absurd rfl hne
      · simp only [List.cons_append, List.head?_cons, Option.some.injEq] at hc
        rw [← hc]
        exact hws a (by simp)

theorem joinSpaceL_getLast_not_space (toks : List (List Char)) :
    (∀ t ∈ toks, t ≠ [] ∧ ∀ c ∈ t, isPySpace c = false) →
    ∀ c, (joinSpaceL toks).getLast? = some c → isPySpace c = false := by
  induction toks with
  | nil =>
    intro _ c hc
    simp [joinSpaceL] at hc
  | cons t toks ih =>
    intro h c hc
    obtain ⟨hne, hws⟩ := h t (by simp)
    rcases toks with _ | ⟨u, rest⟩
    · have : (joinSpaceL [t]).getLast? = t.getLast? := rfl
      rw [this] at hc
      exact hws c (List.mem_of_mem_getLast? hc)
    · have hj : joinSpaceL (t :: u :: rest) = t ++ ' ' :: joinSpaceL (u :: rest) := rfl
      rw [hj] at hc
      have hne2 : ' ' :: joinSpaceL (u :: rest) ≠ [] := by simp
      rw [List.getLast?_append_of_ne_nil _ hne2] at hc
      have hne3 : joinSpaceL (u :: rest) ≠ [] :=
        joinSpaceL_ne_nil (u :: rest) (fun x hx => h x (by simp [hx])) (by simp)
      have hsplit : ' ' :: joinSpaceL (u :: rest) = [' '] ++ joinSpaceL (u :: rest) := rfl
      rw [hsplit, List.getLast?_append_of_ne_nil _ hne3] at hc
      exact ih (fun x hx => h x (by simp [hx])) c hc

theorem joinSpaceL_noAdj (toks : List (List Char)) :
    (∀ t ∈ toks, t ≠ [] ∧ ∀ c ∈ t, isPySpace c = false) →
    noAdjacentWs (joinSpaceL toks) = true := by
  induction toks with
  | nil => intro _; rfl
  | cons t toks ih =>
    intro h
    obtain ⟨hne, hws⟩ := h t (by simp)
    rcases toks with _ | ⟨u, rest⟩
    · exact noAdjacentWs_of_wsfree t hws
    · have hj : joinSpaceL (t :: u :: rest) = t ++ ' ' :: joinSpaceL (u :: rest) := rfl
      rw [hj]
      have hrest : ∀ x ∈ u :: rest, x ≠ [] ∧ ∀ c ∈ x, isPySpace c = false :=
        fun x hx => h x (by simp [hx])
      apply noAdjacentWs_append
      · exact noAdjacentWs_of_wsfree t hws
      · have hJ : noAdjacentWs (joinSpaceL (u :: rest)) = true := ih hrest
        rcases hJl : joinSpaceL (u :: rest) with _ | ⟨j0, J2⟩
        · rfl
        · have hj0 : isPySpace j0 = false := by
            apply joinSpaceL_head_not_space (u :: rest) hrest
            rw [hJl]
            rfl
          simp only [noAdjacentWs, hj0, Bool.and_false, Bool.not_false, Bool.true_and]
          rw [hJl] at hJ
          exact hJ
      · intro a b ha hb
        have : isPySpace a = false := hws a (List.mem_of_mem_getLast? ha)
        simp [this]



theorem not_crlf_of_not_space (c : Char) (h : isPySpace c = false) :
    (!(c == '\n') && !(c == '\r')) = true := by
  rcases hn : c == '\n' with _ | _
  · rcases hr : c == '\r' with _ | _
    · rfl
    · have : c = '\r' := by simpa using hr
      rw [this] at h
      exact absurd h (by decide)
  · have : c = '\n' := by simpa using hn
    rw [this] at h
    exact absurd h (by decide)

theorem wfField_mk_of_wsfree (l : List Char) (h : ∀ c ∈ l, isPySpace c = false) :
    wfField (String.mk l) = true := by
  unfold wfField
  have hdata : (String.mk l).data = l := rfl
  rw [hdata]
  refine Bool.and_eq_true_iff.mpr ⟨Bool.and_eq_true_iff.mpr ⟨Bool.and_eq_true_iff.mpr
    ⟨?_, ?_⟩, ?_⟩, ?_⟩
  · exact List.all_eq_true.mpr (fun c hc => not_crlf_of_not_space c (h c hc))
  · exact noAdjacentWs_of_wsfree l h
  · rcases hh : l.head? with _ | a
    · rfl
    · simp [h a (List.mem_of_mem_head? hh)]
  · rcases hh : l.getLast? with _ | a
    · rfl
    · simp [h a (List.mem_of_mem_getLast? hh)]

theorem wfField_empty : wfField "" = true := by decide

theorem wfField_clean (s : String) : wfField (clean_text s) = true := by
  by_cases hs : s = ""
  · rw [hs]
    decide
  · have hwf := clean_text_tokens_wf s
    have hdata := clean_text_data s hs
    unfold wfField
    rw [hdata]
    refine Bool.and_eq_true_iff.mpr ⟨Bool.and_eq_true_iff.mpr ⟨Bool.and_eq_true_iff.mpr
      ⟨?_, ?_⟩, ?_⟩, ?_⟩
    · refine List.all_eq_true.mpr (fun c hc => ?_)
      rcases joinSpaceL_chars _ hwf c hc with h | h
      · rw [h]
        decide
      · exact not_crlf_of_not_space c h
    · exact joinSpaceL_noAdj _ hwf
    · rcases hh : (joinSpaceL (pySplitL (pyReplaceNewlines s.data))).head? with _ | a
      · rfl
      · simp [joinSpaceL_head_not_space _ hwf a hh]
    · rcases hh : (joinSpaceL (pySplitL (pyReplaceNewlines s.data))).getLast? with _ | a
      · rfl
      · simp [joinSpaceL_getLast_not_space _ hwf a hh]

theorem yearMatchAt_digits (prev : Option Char) (l : List Char) (y : String)
    (h : yearMatchAt prev l = some y) : ∀ c ∈ y.data, isPySpace c = false := by
  rcases l with _ | ⟨c1, _ | ⟨c2, _ | ⟨c3, _ | ⟨c4, rest⟩⟩⟩⟩
  · simp [yearMatchAt] at h
  · simp [yearMatchAt] at h
  · simp [yearMatchAt] at h
  · simp [yearMatchAt] at h
  simp only [yearMatchAt] at h
  split at h
  · rename_i hg
    obtain ⟨hg1, hg4⟩ := Bool.and_eq_true_iff.mp hg
    obtain ⟨hg1, hg3⟩ := Bool.and_eq_true_iff.mp hg1
    obtain ⟨hg1, hgd4⟩ := Bool.and_eq_true_iff.mp hg1
    obtain ⟨hg12, hgd3⟩ := Bool.and_eq_true_iff.mp hg1
    have hy : y = String.mk [c1, c2, c3, c4] := by
      injection h with h2
      rw [← h2]
    rw [hy]
    intro c hc
    simp only [List.mem_cons, List.not_mem_nil, or_false] at hc
    rcases Bool.or_eq_true_iff.mp hg12 with h19 | h20
    · obtain ⟨h1, h9⟩ := Bool.and_eq_true_iff.mp h19
      have hc1 : c1 = '1' := by simpa using h1
      have hc2 : c2 = '9' := by simpa using h9
      rcases hc with rfl | rfl | rfl | rfl
      · rw [hc1]; decide
      · rw [hc2]; decide
      · exact digit_not_space _ hgd3
      · exact digit_not_space _ hgd4
    · obtain ⟨h2, h0⟩ := Bool.and_eq_true_iff.mp h20
      have hc1 : c1 = '2' := by simpa using h2
      have hc2 : c2 = '0' := by simpa using h0
      rcases hc with rfl | rfl | rfl | rfl
      · rw [hc1]; decide
      · rw [hc2]; decide
      · exact digit_not_space _ hgd3
      · exact digit_not_space _ hgd4
  · exact absurd h (by simp)

theorem findYear_wsfree :
    ∀ (cs : List Char) (prev : Option Char) (y : String),
      findYear prev cs = some y → ∀ c ∈ y.data, isPySpace c = false := by
  intro cs
  induction cs with
  | nil =>
    intro prev y h
    simp [findYear] at h
  | cons c cs ih =>
    intro prev y h
    rcases hm : yearMatchAt prev (c :: cs) with _ | y2
    · simp only [findYear, hm] at h
      exact ih (some c) y h
    · simp only [findYear, hm] at h
      obtain rfl : y2 = y := by injection h
      exact yearMatchAt_digits prev (c :: cs) y2 hm

theorem wfField_year (s : String) : wfField (extract_year_from_date s) = true := by
  unfold extract_year_from_date
  by_cases hs : s = ""
  · rw [if_pos hs]
    exact wfField_empty
  · rw [if_neg hs]
    rcases hf : findYear none s.data with _ | y
    · exact wfField_empty
    · have hd := findYear_wsfree s.data none y hf
      have := wfField_mk_of_wsfree y.data hd
      simpa using this



theorem collectAuthors_mem (rows : List Row) :
    ∀ a ∈ collectAuthors rows, (∃ td, a = clean_text td) ∧ a ≠ "" := by
  intro a ha
  unfold collectAuthors at ha
  rcases List.mem_filterMap.mp ha with ⟨r, _, hr⟩
  rcases r with ⟨th, td⟩
  cases th with
  | none => simp at hr
  | some thc =>
    cases td with
    | none => simp at hr
    | some tdv =>
      simp only at hr
      split at hr
      · split at hr
        · rename_i hne
          injection hr with hr2
          exact ⟨⟨tdv, hr2.symm⟩, by rw [← hr2]; exact hne⟩
        · exact absurd hr (by simp)
      · exact absurd hr (by simp)

theorem extract_last_name_clean_wsfree (s : String) (h : clean_text s ≠ "") :
    (extract_last_name (clean_text s)).data ≠ [] ∧
      ∀ c ∈ (extract_last_name (clean_text s)).data, isPySpace c = false := by
  have hs : s ≠ "" := fun he => h (by rw [he]; decide)
  have hwf := clean_text_tokens_wf s
  have hdata := clean_text_data s hs
  have htoksne : pySplitL (pyReplaceNewlines s.data) ≠ [] := by
    intro h0
    apply h
    rw [clean_text_eq_mk s hs, h0]
    rfl
  rw [extract_last_name_eq]
  unfold surnameSpec
  have hsplit : pySplit (clean_text s) =
      (pySplitL (pyReplaceNewlines s.data)).map String.mk := by
    unfold pySplit
    rw [hdata, pySplitL_join _ hwf]
  rw [hsplit, List.getLast?_map]
  rcases hglast : (pySplitL (pyReplaceNewlines s.data)).getLast? with _ | t
  · exact absurd (List.getLast?_eq_none_iff.mp hglast) htoksne
  · have ht := hwf t (List.mem_of_mem_getLast? hglast)
    exact ⟨ht.1, ht.2⟩

theorem wfField_append_two (s1 s2 : String)
    (h1 : s1.data ≠ [] ∧ ∀ c ∈ s1.data, isPySpace c = false)
    (h2 : s2.data ≠ [] ∧ ∀ c ∈ s2.data, isPySpace c = false) :
    wfField (s1 ++ " and " ++ s2) = true := by
  obtain ⟨h1ne, h1ws⟩ := h1
  obtain ⟨h2ne, h2ws⟩ := h2
  have hdata : (s1 ++ " and " ++ s2).data =
      s1.data ++ ([' ', 'a', 'n', 'd', ' '] ++ s2.data) := by
    rw [show (s1 ++ " and " ++ s2).data = s1.data ++ (" and " : String).data ++ s2.data from rfl]
    rw [List.append_assoc]
  unfold wfField
  rw [hdata]
  refine Bool.and_eq_true_iff.mpr ⟨Bool.and_eq_true_iff.mpr ⟨Bool.and_eq_true_iff.mpr
    ⟨?_, ?_⟩, ?_⟩, ?_⟩
  · refine List.all_eq_true.mpr (fun c hc => ?_)
    rcases List.mem_append.mp hc with hm | hm
    · exact not_crlf_of_not_space c (h1ws c hm)
    · rcases List.mem_append.mp hm with hm2 | hm2
      · have : ∀ x ∈ ([' ', 'a', 'n', 'd', ' '] : List Char),
            (!(x == '\n') && !(x == '\r')) = true := by decide
        exact this c hm2
      · exact not_crlf_of_not_space c (h2ws c hm2)
  · apply noAdjacentWs_append
    · exact noAdjacentWs_of_wsfree _ h1ws
    · apply noAdjacentWs_append
      · decide
      · exact noAdjacentWs_of_wsfree _ h2ws
      · intro a b ha hb
        have : a = ' ' := by
          have : ([' ', 'a', 'n', 'd', ' '] : List Char).getLast? = some ' ' := by decide
          rw [this] at ha
          injection ha with hx
          exact hx.symm
        have hbw : isPySpace b = false := h2ws b (List.mem_of_mem_head? hb)
        simp [hbw]
    · intro a b ha hb
      have haw : isPySpace a = false := h1ws a (List.mem_of_mem_getLast? ha)
      simp [haw]
  · rcases hh : (s1.data ++ ([' ', 'a', 'n', 'd', ' '] ++ s2.data)).head? with _ | a
    · rfl
    · rcases hs1 : s1.data with _ | ⟨x, xs⟩
      · exact absurd hs1 h1ne
      · rw [hs1] at hh
        simp only [List.cons_append, List.head?_cons, Option.some.injEq] at hh
        have : isPySpace x = false := h1ws x (by rw [hs1]; simp)
        rw [← hh]
        simp [this]
  · rcases hh : (s1.data ++ ([' ', 'a', 'n', 'd', ' '] ++ s2.data)).getLast? with _ | a
    · rfl
    · have hne5 : [' ', 'a', 'n', 'd', ' '] ++ s2.data ≠ [] := by simp
      rw [List.getLast?_append_of_ne_nil _ hne5,
        List.getLast?_append_of_ne_nil _ h2ne] at hh
      have : isPySpace a = false := h2ws a (List.mem_of_mem_getLast? hh)
      simp [this]

theorem wfField_append_etal (s1 : String)
    (h1 : s1.data ≠ [] ∧ ∀ c ∈ s1.data, isPySpace c = false) :
    wfField (s1 ++ " et al") = true := by
  obtain ⟨h1ne, h1ws⟩ := h1
  have hdata : (s1 ++ " et al").data = s1.data ++ [' ', 'e', 't', ' ', 'a', 'l'] := rfl
  unfold wfField
  rw [hdata]
  refine Bool.and_eq_true_iff.mpr ⟨Bool.and_eq_true_iff.mpr ⟨Bool.and_eq_true_iff.mpr
    ⟨?_, ?_⟩, ?_⟩, ?_⟩
  · refine List.all_eq_true.mpr (fun c hc => ?_)
    rcases List.mem_append.mp hc with hm | hm
    · exact not_crlf_of_not_space c (h1ws c hm)
    · have : ∀ x ∈ ([' ', 'e', 't', ' ', 'a', 'l'] : List Char),
          (!(x == '\n') && !(x == '\r')) = true := by decide
      exact this c hm
  · apply noAdjacentWs_append
    · exact noAdjacentWs_of_wsfree _ h1ws
    · decide
    · intro a b ha hb
      have haw : isPySpace a = false := h1ws a (List.mem_of_mem_getLast? ha)
      simp [haw]
  · rcases hh : (s1.data ++ [' ', 'e', 't', ' ', 'a', 'l']).head? with _ | a
    · rfl
    · rcases hs1 : s1.data with _ | ⟨x, xs⟩
      · exact absurd hs1 h1ne
      · rw [hs1] at hh
        simp only [List.cons_append, List.head?_cons, Option.some.injEq] at hh
        have : isPySpace x = false := h1ws x (by rw [hs1]; simp)
        rw [← hh]
        simp [this]
  · have hne6 : ([' ', 'e', 't', ' ', 'a', 'l'] : List Char) ≠ [] := by simp
    rw [List.getLast?_append_of_ne_nil _ hne6]
    decide



theorem wfField_format_authors (l : List String)
    (h : ∀ a ∈ l, (∃ s, a = clean_text s) ∧ a ≠ "") :
    wfField (format_authors l) = true := by
  unfold format_authors
  by_cases hl : l = []
  · rw [if_pos hl]
    exact wfField_empty
  · rw [if_neg hl]
    have hmem : ∀ b ∈ (l.filter (fun a => pyStrip a ≠ "")).map extract_last_name,
        b.data ≠ [] ∧ ∀ c ∈ b.data, isPySpace c = false := by
      intro b hb
      rcases List.mem_map.mp hb with ⟨a, haf, hab⟩
      have hal : a ∈ l := List.mem_of_mem_filter haf
      obtain ⟨⟨s, hs⟩, hane⟩ := h a hal
      rw [← hab, hs]
      exact extract_last_name_clean_wsfree s (by rw [← hs]; exact hane)
    rcases hm : (l.filter (fun a => pyStrip a ≠ "")).map extract_last_name with
      _ | ⟨a, _ | ⟨b, _ | ⟨c, rest⟩⟩⟩
    · exact wfField_empty
    · have ha := hmem a (by rw [hm]; simp)
      have := wfField_mk_of_wsfree a.data ha.2
      simpa using this
    · exact wfField_append_two a b (hmem a (by rw [hm]; simp)) (hmem b (by rw [hm]; simp))
    · exact wfField_append_etal a (hmem a (by rw [hm]; simp))

theorem rowLabelValue?_clean (r : Row) (lv : String × String)
    (h : rowLabelValue? r = some lv) : ∃ td, lv.2 = clean_text td := by
  rcases r with ⟨th, td⟩
  cases th with
  | none => simp [rowLabelValue?] at h
  | some thc =>
    cases td with
    | none => simp [rowLabelValue?] at h
    | some tdv =>
      refine ⟨tdv, ?_⟩
      simp only [rowLabelValue?] at h
      injection h with h2
      rw [← h2]

theorem journalSpec_cases (rows : List Row) :
    journalSpec rows = "" ∨ ∃ td, journalSpec rows = clean_text td := by
  unfold journalSpec
  rcases hL : (rows.filterMap rowLabelValue?).filterMap (fun lv =>
      if lv.1 ∈ journalLabels ∧ lv.2 ≠ "" then some lv.2 else none) with _ | ⟨v, L2⟩
  · left
    rw [hL]
    rfl
  · right
    have hv : v ∈ (rows.filterMap rowLabelValue?).filterMap (fun lv =>
        if lv.1 ∈ journalLabels ∧ lv.2 ≠ "" then some lv.2 else none) := by
      rw [hL]
      simp
    rcases List.mem_filterMap.mp hv with ⟨lv, hlv, hif⟩
    rcases List.mem_filterMap.mp hlv with ⟨r, _, hr⟩
    obtain ⟨td, htd⟩ := rowLabelValue?_clean r lv hr
    split at hif
    · injection hif with h2
      refine ⟨td, ?_⟩
      rw [hL, show ((v :: L2).headD "") = v from rfl, ← h2, htd]
    · exact absurd hif (by simp)

theorem abstractSpec_cases (rows : List Row) :
    abstractSpec rows = "" ∨ ∃ td, abstractSpec rows = clean_text td := by
  unfold abstractSpec
  rcases hL : abstractValues rows with _ | ⟨v, L2⟩
  · left
    rfl
  · right
    have hlast : ((v :: L2).getLastD "") ∈ v :: L2 := by
      rw [List.getLastD_eq_getLast?]
      rcases hg : (v :: L2).getLast? with _ | w
      · exact absurd (List.getLast?_eq_none_iff.mp hg) (by simp)
      · simpa using List.mem_of_mem_getLast? hg
    have hmem : ((v :: L2).getLastD "") ∈ abstractValues rows := by
      rw [hL]
      exact hlast
    unfold abstractValues at hmem
    rcases List.mem_filterMap.mp hmem with ⟨lv, hlv, hif⟩
    rcases List.mem_filterMap.mp hlv with ⟨r, _, hr⟩
    obtain ⟨td, htd⟩ := rowLabelValue?_clean r lv hr
    split at hif
    · injection hif with h2
      exact ⟨td, by rw [← h2, htd]⟩
    · exact absurd hif (by simp)

/-- C10: every field of every record produced by `parse_article` is a
string with no CR or LF, no two consecutive whitespace characters, and no
leading or trailing whitespace; no field is absent. -/
theorem claim_record_fields_wf (e : Entry) :
    wfField (parse_article e).title = true
    ∧ wfField (parse_article e).authors = true
    ∧ wfField (parse_article e).year = true
    ∧ wfField (parse_article e).journal = true
    ∧ wfField (parse_article e).abstract = true := by
  refine ⟨?_, ?_, ?_, ?_, ?_⟩
  · rw [parse_article_title_eq]
    rcases e with ⟨ti, tb⟩
    cases ti with
    | none => exact wfField_empty
    | some t => exact wfField_clean t
  · rw [parse_article_authors_eq]
    rcases e with ⟨ti, tb⟩
    cases tb with
    | none => exact wfField_empty
    | some rows =>
      exact wfField_format_authors _ (fun a ha =>
        let h := collectAuthors_mem rows a ha
        ⟨h.1, h.2⟩)
  · rw [parse_article_year_eq]
    rcases e with ⟨ti, tb⟩
    cases tb with
    | none => exact wfField_empty
    | some rows =>
      dsimp only
      unfold yearSpec
      rcases (dateValues rows).getLast? with _ | v
      · exact wfField_empty
      · exact wfField_year v
  · rw [parse_article_journal_eq]
    rcases e with ⟨ti, tb⟩
    cases tb with
    | none => exact wfField_empty
    | some rows =>
      dsimp only
      rcases journalSpec_cases rows with h | ⟨td, h⟩
      · rw [h]
        exact wfField_empty
      · rw [h]
        exact wfField_clean td
  · rw [parse_article_abstract_eq]
    rcases e with ⟨ti, tb⟩
    cases tb with
    | none => exact wfField_empty
    | some rows =>
      dsimp only
      rcases abstractSpec_cases rows with h | ⟨td, h⟩
      · rw [h]
        exact wfField_empty
      · rw [h]
        exact wfField_clean td

end Zotero
